import Mathlib

/-!
Shallow embedding of `src/view.go` (package `view`): a binary trie over the
32-bit IPv4 address space with longest-prefix-match lookup, plus the
dotted-quad address codec used by `Lookup`.

Go `nil` pointers for `*viewNode` are modelled by the `ViewNode.nil`
constructor; machine integers are modelled as `Nat`/`Int` with explicit
masking where overflow or truncation matters.
-/

set_option maxRecDepth 8000

/-- Embeds Go struct `ViewInfo` (fields `area`, `subnet`). -/
structure ViewInfo where
  area : String
  subnet : String
deriving DecidableEq

/-- The error values of `view.go`: `errBadLine`, `errBadSubnet`,
`errDupNet`, `errBadAddress`. -/
inductive VErr where
  | badLine
  | badSubnet
  | dupNet
  | badAddress
deriving DecidableEq

/-- Embeds Go struct `viewNode` (`left`, `right : *viewNode`, `vinfo : *ViewInfo`).
A nil `*viewNode` is the `nil` constructor. -/
inductive ViewNode where
  | nil
  | mk (left right : ViewNode) (vinfo : Option ViewInfo)
deriving DecidableEq

/-- The root of a freshly constructed `View` (`New()` returns the zero value:
root with nil children and nil `vinfo`). -/
def freshView : ViewNode := ViewNode.mk ViewNode.nil ViewNode.nil none

/-- The descent mask after `step` right-shifts: Go starts with
`bit = 0x80000000` and executes `bit >>= 1` once per level, so at depth
`step` the mask is `0x80000000 >> step` (0 once `step` exceeds 31). -/
def maskBit (step : Nat) : Nat := 0x80000000 >>> step

/-- The child-selection test `unetaddr & bit != 0` of `viewInsert` and
`viewLookup`: `true` selects the `right` child, `false` the `left` one. -/
def takeRight (a step : Nat) : Bool := a &&& maskBit step != 0

/-- The creation phase of `viewInsert` (its second `for mask > 0` loop):
starting at depth `s`, allocate a chain of `k + 1` fresh nodes along the bit
path of `a` and attach `info` to the deepest one. -/
def buildChain (a : Nat) (info : ViewInfo) : Nat → Nat → ViewNode
  | _, 0 => ViewNode.mk ViewNode.nil ViewNode.nil (some info)
  | s, k + 1 =>
    if takeRight a s then
      ViewNode.mk ViewNode.nil (buildChain a info (s + 1) k) none
    else
      ViewNode.mk (buildChain a info (s + 1) k) ViewNode.nil none

/-- Embeds `(*View).viewInsert`, made pure: the returned node is the updated
subtree rooted at the argument node (Go mutates in place), the second
component is the returned error.  `m` is the remaining `mask` (Go `int`,
hence `Int`), `s` the current depth.  The walk phase (`for mask > 0` with an
existing child) is the recursive call; a missing child with `mask > 0`
switches to the creation phase (`buildChain`); when the walk used up `mask`
the node either already carries `vinfo` (`errDupNet`) or receives `info`.
`viewInsert` is never invoked on a nil node (the root is a struct field);
the `nil` case is a vacuous catch-all returning the node unchanged. -/
def viewInsertGo (a : Nat) (info : ViewInfo) : ViewNode → Int → Nat → ViewNode × Option VErr
  | ViewNode.nil, _, _ => (ViewNode.nil, none)
  | ViewNode.mk l r vi, m, s =>
    if m ≤ 0 then
      match vi with
      | some v0 => (ViewNode.mk l r (some v0), some VErr.dupNet)
      | none => (ViewNode.mk l r (some info), none)
    else
      if takeRight a s then
        match r with
        | ViewNode.nil =>
          (ViewNode.mk l (buildChain a info (s + 1) (m - 1).toNat) vi, none)
        | ViewNode.mk _ _ _ =>
          let res := viewInsertGo a info r (m - 1) (s + 1)
          (ViewNode.mk l res.1 vi, res.2)
      else
        match l with
        | ViewNode.nil =>
          (ViewNode.mk (buildChain a info (s + 1) (m - 1).toNat) r vi, none)
        | ViewNode.mk _ _ _ =>
          let res := viewInsertGo a info l (m - 1) (s + 1)
          (ViewNode.mk res.1 r vi, res.2)

/-- Embeds `(*View).viewInsert` entered at the root (depth 0, mask `0x80000000`). -/
def viewInsert (t : ViewNode) (a : Nat) (m : Int) (info : ViewInfo) : ViewNode × Option VErr :=
  viewInsertGo a info t m 0

/-- Embeds the `for node != nil` loop of `(*View).viewLookup`: `best` is the
`info` accumulator (last entry seen), `s` the current depth.  Note the Go
loop has no step bound: it runs until a nil child is reached. -/
def viewLookupGo (a : Nat) : ViewNode → Nat → Option ViewInfo → Option ViewInfo
  | ViewNode.nil, _, best => best
  | ViewNode.mk l r vi, s, best =>
    let best' := match vi with | some i => some i | none => best
    if takeRight a s then viewLookupGo a r (s + 1) best'
    else viewLookupGo a l (s + 1) best'

/-- Embeds `(*View).viewLookup` entered at the root with a nil accumulator. -/
def viewLookup (t : ViewNode) (a : Nat) : Option ViewInfo := viewLookupGo a t 0 none

/-- One `Insert` call `(address, prefixLength, entry)` applied to a trie,
discarding the error (as the configuration loader in `view.go` does when it
folds over inserts). -/
def insertCall (t : ViewNode) (c : Nat × Nat × ViewInfo) : ViewNode :=
  (viewInsert t c.1 (c.2.1 : Int) c.2.2).1

/-- The trie obtained from a fresh `View` by a sequence of `Insert` calls. -/
def buildTrie (calls : List (Nat × Nat × ViewInfo)) : ViewNode :=
  calls.foldl insertCall freshView

/-- Big-endian packing of a byte list, as `binary.Read(buf, binary.BigEndian,
&unetaddr)` performs on the 4-byte slice in `viewUintAddr`. -/
def beUint32 (l : List Nat) : Nat := l.foldl (fun acc b => acc * 256 + b) 0

/-- Embeds `viewUintAddr(netaddr [4]uint8) uint32`. -/
def viewUintAddr (n0 n1 n2 n3 : Nat) : Nat := beUint32 [n0, n1, n2, n3]

/-- Embeds `bytes.Split(addr, []byte("."))`: split on `'.'`, keeping empty
components (the empty input yields one empty component). -/
def splitDots : List Char → List (List Char)
  | [] => [[]]
  | c :: rest =>
    if c = '.' then [] :: splitDots rest
    else
      match splitDots rest with
      | [] => [[c]]
      | g :: gs => (c :: g) :: gs

/-- Decimal value of a digit string, as accumulated by `strconv.Atoi`. -/
def digitsVal (l : List Char) : Nat := l.foldl (fun acc c => acc * 10 + (c.toNat - 48)) 0

/-- Embeds `strconv.Atoi` on a 64-bit platform: optional sign, at least one
character, decimal digits only, result within the `int64` range (out-of-range
values make `Atoi` return an error). -/
def goAtoi (s : List Char) : Option Int :=
  let core : Bool → List Char → Option Int := fun neg digits =>
    if digits = [] then none
    else if digits.all Char.isDigit then
      let v : Int := if neg then -(digitsVal digits : Int) else (digitsVal digits : Int)
      if -(2 ^ 63) ≤ v ∧ v < 2 ^ 63 then some v else none
    else none
  match s with
  | '-' :: rest => core true rest
  | '+' :: rest => core false rest
  | l => core false l

/-- Embeds the Go conversion `uint8(i)` applied to an `int`: two's-complement
truncation to the low 8 bits, i.e. the representative of `z` modulo 256. -/
def goUint8 (z : Int) : Nat := (z % 256).toNat

/-- Runs `strconv.Atoi` on every component, failing if any fails (the
`for i := 0; i < 4; i++` conversion loop of `Lookup`). -/
def atoiAll : List (List Char) → Option (List Int)
  | [] => some []
  | c :: rest =>
    match goAtoi c, atoiAll rest with
    | some z, some zs => some (z :: zs)
    | _, _ => none

/-- The address-parsing prefix of `(*View).Lookup`: split on `'.'`, require
exactly 4 components, convert each with `Atoi`, truncate each to `uint8` and
pack with `viewUintAddr`. -/
def parseAddr (addr : List Char) : Option Nat :=
  let ipfs := splitDots addr
  if ipfs.length = 4 then
    match atoiAll ipfs with
    | some (z0 :: z1 :: z2 :: z3 :: []) =>
      some (viewUintAddr (goUint8 z0) (goUint8 z1) (goUint8 z2) (goUint8 z3))
    | _ => none
  else none

/-- Embeds `(*View).Lookup`: on a parse failure it returns
`(nil, errBadAddress)` without consulting the trie, otherwise
`(viewLookup(unetaddr), nil)`. -/
def Lookup (v : ViewNode) (addr : List Char) : Option ViewInfo × Option VErr :=
  match parseAddr addr with
  | none => (none, some VErr.badAddress)
  | some u => (viewLookup v u, none)

/-- Follows the same descent as `viewLookup` but counts the nodes visited by
its `for node != nil` loop. -/
def lookupVisits (a : Nat) : ViewNode → Nat → Nat
  | ViewNode.nil, _ => 0
  | ViewNode.mk l r _, s =>
    if takeRight a s then 1 + lookupVisits a r (s + 1)
    else 1 + lookupVisits a l (s + 1)

/-- Height of a trie: number of nodes on the longest root-to-leaf chain. -/
def heightOf : ViewNode → Nat
  | ViewNode.nil => 0
  | ViewNode.mk l r _ => 1 + max (heightOf l) (heightOf r)

/-- Specification-side predicate: the first `m` bits of `a` (from the most
significant bit of a 32-bit value downwards, the order in which the trie
consumes them) agree with those of `A`. -/
def prefixMatches (a m A : Nat) : Prop := ∀ i, i < m → takeRight a i = takeRight A i

instance (a m A : Nat) : Decidable (prefixMatches a m A) :=
  decidable_of_iff (∀ i < m, takeRight a i = takeRight A i) Iff.rfl

/-- The bit path of length `d` that the trie walks for address `a` starting
at depth `s`. -/
def pathOf (a : Nat) : Nat → Nat → List Bool
  | _, 0 => []
  | s, d + 1 => takeRight a s :: pathOf a (s + 1) d

/-- The `vinfo` field of a node (nil pointer carries none). -/
def vinfoOf : ViewNode → Option ViewInfo
  | ViewNode.nil => none
  | ViewNode.mk _ _ vi => vi

/-- The node reached from `t` by following the child links of path `p`
(nil if a link is missing). -/
def nodeAt : ViewNode → List Bool → ViewNode
  | t, [] => t
  | ViewNode.nil, _ :: _ => ViewNode.nil
  | ViewNode.mk l r _, b :: bs => if b then nodeAt r bs else nodeAt l bs

/-- The entry stored at the end of path `p` in `t`, if that node exists and
carries one. -/
def entryAtPath (t : ViewNode) (p : List Bool) : Option ViewInfo := vinfoOf (nodeAt t p)

/-- The masked bit path an `Insert` call settles its entry on. -/
def callPath (c : Nat × Nat × ViewInfo) : List Bool := pathOf c.1 0 c.2.1

/-- The deepest entry on the walk of `a` through `t` starting at depth `s`
(none if no node on the walk carries one): the value `viewLookup` returns. -/
def lastE (a : Nat) : ViewNode → Nat → Option ViewInfo
  | ViewNode.nil, _ => none
  | ViewNode.mk l r vi, s =>
    match (if takeRight a s then lastE a r (s + 1) else lastE a l (s + 1)) with
    | some e => some e
    | none => vi

/-! Section: Lemmas: `entryAtPath` and the effect of `viewInsert` -/

theorem nodeAt_nilNode (p : List Bool) : nodeAt ViewNode.nil p = ViewNode.nil := by
  cases p <;> rfl

theorem pathOf_zero (a s : Nat) : pathOf a s 0 = [] := rfl

theorem pathOf_succ (a s d : Nat) :
    pathOf a s (d + 1) = takeRight a s :: pathOf a (s + 1) d := rfl

theorem entryAtPath_nilNode (p : List Bool) : entryAtPath ViewNode.nil p = none := by
  cases p <;> rfl

theorem viewInsertGo_mk (a : Nat) (info : ViewInfo) (l r : ViewNode) (vi : Option ViewInfo)
    (m : Int) (s : Nat) :
    viewInsertGo a info (ViewNode.mk l r vi) m s =
      if m ≤ 0 then
        match vi with
        | some v0 => (ViewNode.mk l r (some v0), some VErr.dupNet)
        | none => (ViewNode.mk l r (some info), none)
      else
        if takeRight a s then
          match r with
          | ViewNode.nil => (ViewNode.mk l (buildChain a info (s + 1) (m - 1).toNat) vi, none)
          | ViewNode.mk _ _ _ =>
            (ViewNode.mk l (viewInsertGo a info r (m - 1) (s + 1)).1 vi,
              (viewInsertGo a info r (m - 1) (s + 1)).2)
        else
          match l with
          | ViewNode.nil => (ViewNode.mk (buildChain a info (s + 1) (m - 1).toNat) r vi, none)
          | ViewNode.mk _ _ _ =>
            (ViewNode.mk (viewInsertGo a info l (m - 1) (s + 1)).1 r vi,
              (viewInsertGo a info l (m - 1) (s + 1)).2) := rfl

theorem entryAtPath_cons (l r : ViewNode) (vi : Option ViewInfo) (b : Bool) (bs : List Bool) :
    entryAtPath (ViewNode.mk l r vi) (b :: bs) =
      if b then entryAtPath r bs else entryAtPath l bs := by
  cases b <;> rfl

theorem entryAtPath_fresh (p : List Bool) : entryAtPath freshView p = none := by
  cases p with
  | nil => rfl
  | cons b bs =>
    cases b <;> simp [freshView, entryAtPath_cons, entryAtPath_nilNode]

theorem buildChain_entryAt (a : Nat) (info : ViewInfo) (s k : Nat) (p : List Bool) :
    entryAtPath (buildChain a info s k) p =
      if p = pathOf a s k then some info else none := by
  induction k generalizing s p with
  | zero =>
    cases p with
    | nil => simp [buildChain, pathOf_zero, entryAtPath, nodeAt, vinfoOf]
    | cons b bs =>
      cases b <;> simp [buildChain, pathOf_zero, entryAtPath_cons, entryAtPath_nilNode]
  | succ k ih =>
    by_cases hb : takeRight a s
    · cases p with
      | nil => simp [buildChain, hb, pathOf_succ, entryAtPath, nodeAt, vinfoOf]
      | cons b bs =>
        cases b <;>
          simp [buildChain, hb, pathOf_succ, entryAtPath_cons, entryAtPath_nilNode, ih]
    · cases p with
      | nil => simp [buildChain, hb, pathOf_succ, entryAtPath, nodeAt, vinfoOf]
      | cons b bs =>
        cases b <;>
          simp [buildChain, hb, pathOf_succ, entryAtPath_cons, entryAtPath_nilNode, ih]

theorem viewInsertGo_entryAt (a : Nat) (info : ViewInfo) (t : ViewNode) (m : Int) (s : Nat)
    (p : List Bool) :
    entryAtPath (viewInsertGo a info t m s).1 p =
      if t ≠ ViewNode.nil ∧ p = pathOf a s m.toNat ∧ entryAtPath t p = none then some info
      else entryAtPath t p := by
  induction t generalizing m s p with
  | nil => simp [viewInsertGo]
  | mk l r vi ihl ihr =>
    by_cases hm : m ≤ 0
    · have hm0 : m.toNat = 0 := by omega
      cases vi with
      | some v0 =>
        cases p with
        | nil => simp [viewInsertGo, hm, hm0, pathOf_zero, entryAtPath, nodeAt, vinfoOf]
        | cons b bs => simp [viewInsertGo, hm, hm0, pathOf_zero, entryAtPath_cons]
      | none =>
        cases p with
        | nil => simp [viewInsertGo, hm, hm0, pathOf_zero, entryAtPath, nodeAt, vinfoOf]
        | cons b bs => simp [viewInsertGo, hm, hm0, pathOf_zero, entryAtPath_cons]
    · have hpath : pathOf a s m.toNat = takeRight a s :: pathOf a (s + 1) (m - 1).toNat := by
        have hmt : m.toNat = (m - 1).toNat + 1 := by omega
        rw [hmt, pathOf_succ]
      by_cases hb : takeRight a s
      · cases r with
        | nil =>
          cases p with
          | nil => simp [viewInsertGo, hm, hb, hpath, entryAtPath, nodeAt, vinfoOf]
          | cons b bs =>
            cases b <;>
              simp [viewInsertGo, hm, hb, hpath, entryAtPath_cons,
                entryAtPath_nilNode, buildChain_entryAt]
        | mk cl cr cvi =>
          rw [viewInsertGo_mk, if_neg hm, if_pos hb]
          cases p with
          | nil => simp [hpath, entryAtPath, nodeAt, vinfoOf]
          | cons b bs =>
            cases b <;> simp [hpath, entryAtPath_cons, ihr, hb]
      · cases l with
        | nil =>
          cases p with
          | nil => simp [viewInsertGo, hm, hb, hpath, entryAtPath, nodeAt, vinfoOf]
          | cons b bs =>
            cases b <;>
              simp [viewInsertGo, hm, hb, hpath, entryAtPath_cons,
                entryAtPath_nilNode, buildChain_entryAt]
        | mk cl cr cvi =>
          rw [viewInsertGo_mk, if_neg hm, if_neg hb]
          cases p with
          | nil => simp [hpath, entryAtPath, nodeAt, vinfoOf]
          | cons b bs =>
            cases b <;> simp [hpath, entryAtPath_cons, ihl, hb]

theorem viewInsertGo_snd (a : Nat) (info : ViewInfo) (t : ViewNode) (m : Int) (s : Nat) :
    (viewInsertGo a info t m s).2 =
      if entryAtPath t (pathOf a s m.toNat) = none then none else some VErr.dupNet := by
  induction t generalizing m s with
  | nil => simp [viewInsertGo, entryAtPath_nilNode]
  | mk l r vi ihl ihr =>
    by_cases hm : m ≤ 0
    · have hm0 : m.toNat = 0 := by omega
      cases vi <;> simp [viewInsertGo, hm, hm0, pathOf_zero, entryAtPath, nodeAt, vinfoOf]
    · have hpath : pathOf a s m.toNat = takeRight a s :: pathOf a (s + 1) (m - 1).toNat := by
        have hmt : m.toNat = (m - 1).toNat + 1 := by omega
        rw [hmt, pathOf_succ]
      by_cases hb : takeRight a s
      · cases r with
        | nil => simp [viewInsertGo, hm, hb, hpath, entryAtPath_cons, entryAtPath_nilNode]
        | mk cl cr cvi =>
          rw [viewInsertGo_mk, if_neg hm, if_pos hb]
          simp [hpath, entryAtPath_cons, ihr, hb]
      · cases l with
        | nil => simp [viewInsertGo, hm, hb, hpath, entryAtPath_cons, entryAtPath_nilNode]
        | mk cl cr cvi =>
          rw [viewInsertGo_mk, if_neg hm, if_neg hb]
          simp [hpath, entryAtPath_cons, ihl, hb]

theorem viewInsertGo_none_or_unchanged (a : Nat) (info : ViewInfo) (t : ViewNode) (m : Int)
    (s : Nat) :
    (viewInsertGo a info t m s).2 = none ∨ (viewInsertGo a info t m s).1 = t := by
  induction t generalizing m s with
  | nil => simp [viewInsertGo]
  | mk l r vi ihl ihr =>
    by_cases hm : m ≤ 0
    · cases vi with
      | some v0 => right; simp [viewInsertGo, hm]
      | none => left; simp [viewInsertGo, hm]
    · by_cases hb : takeRight a s
      · cases r with
        | nil => left; simp [viewInsertGo, hm, hb]
        | mk cl cr cvi =>
          rw [viewInsertGo_mk, if_neg hm, if_pos hb]
          rcases ihr (m - 1) (s + 1) with h | h
          · left; simp [h]
          · right; simp [h]
      · cases l with
        | nil => left; simp [viewInsertGo, hm, hb]
        | mk cl cr cvi =>
          rw [viewInsertGo_mk, if_neg hm, if_neg hb]
          rcases ihl (m - 1) (s + 1) with h | h
          · left; simp [h]
          · right; simp [h]

/-! Section: Lemmas: the trie built by a sequence of inserts -/

theorem viewInsertGo_fst_ne_nil (a : Nat) (info : ViewInfo) (l r : ViewNode)
    (vi : Option ViewInfo) (m : Int) (s : Nat) :
    (viewInsertGo a info (ViewNode.mk l r vi) m s).1 ≠ ViewNode.nil := by
  rw [viewInsertGo_mk]
  split
  · split <;> simp
  · split
    · cases r <;> simp
    · cases l <;> simp

theorem insertCall_ne_nil (t : ViewNode) (c : Nat × Nat × ViewInfo)
    (ht : t ≠ ViewNode.nil) : insertCall t c ≠ ViewNode.nil := by
  cases t with
  | nil => exact absurd rfl ht
  | mk l r vi => exact viewInsertGo_fst_ne_nil c.1 c.2.2 l r vi (c.2.1 : Int) 0

theorem foldl_insertCall_entryAt (calls : List (Nat × Nat × ViewInfo)) (t : ViewNode)
    (ht : t ≠ ViewNode.nil) (p : List Bool) :
    entryAtPath (calls.foldl insertCall t) p =
      if entryAtPath t p = none then
        (calls.find? fun c => decide (callPath c = p)).map fun c => c.2.2
      else entryAtPath t p := by
  induction calls generalizing t with
  | nil =>
    by_cases h : entryAtPath t p = none <;> simp [h]
  | cons c cs ih =>
    rw [List.foldl_cons, ih (insertCall t c) (insertCall_ne_nil t c ht)]
    have hstep : entryAtPath (insertCall t c) p =
        if p = callPath c ∧ entryAtPath t p = none then some c.2.2
        else entryAtPath t p := by
      have h := viewInsertGo_entryAt c.1 c.2.2 t (c.2.1 : Int) 0 p
      simpa [insertCall, viewInsert, callPath, ht] using h
    by_cases he : entryAtPath t p = none
    · by_cases hc : p = callPath c
      · rw [if_pos ⟨hc, he⟩] at hstep
        rw [hstep, if_pos he, List.find?_cons_of_pos _ (by simp [hc])]
        simp
      · rw [if_neg (by simp [hc])] at hstep
        rw [List.find?_cons_of_neg _ (by simp [Ne.symm hc]), hstep]
    · rw [if_neg (by simp [he])] at hstep
      simp [hstep, he]

theorem buildTrie_entryAt (calls : List (Nat × Nat × ViewInfo)) (p : List Bool) :
    entryAtPath (buildTrie calls) p =
      (calls.find? fun c => decide (callPath c = p)).map fun c => c.2.2 := by
  have h := foldl_insertCall_entryAt calls freshView (by simp [freshView]) p
  simpa [buildTrie, entryAtPath_fresh] using h

/-! Section: Lemmas: `viewLookup` returns the deepest entry on the walk -/

theorem lastE_mk (a : Nat) (l r : ViewNode) (vi : Option ViewInfo) (s : Nat) :
    lastE a (ViewNode.mk l r vi) s =
      match (if takeRight a s then lastE a r (s + 1) else lastE a l (s + 1)) with
      | some e => some e
      | none => vi := rfl

theorem viewLookupGo_eq_lastE (a : Nat) (t : ViewNode) :
    ∀ (s : Nat) (best : Option ViewInfo),
      viewLookupGo a t s best =
        match lastE a t s with
        | some e => some e
        | none => best := by
  induction t with
  | nil => intro s best; simp [viewLookupGo, lastE]
  | mk l r vi ihl ihr =>
    intro s best
    by_cases hb : takeRight a s
    · cases hr : lastE a r (s + 1) <;> cases vi <;>
        simp [viewLookupGo, lastE_mk, hb, ihr, hr]
    · cases hr : lastE a l (s + 1) <;> cases vi <;>
        simp [viewLookupGo, lastE_mk, hb, ihl, hr]

theorem viewLookup_eq_lastE (t : ViewNode) (a : Nat) : viewLookup t a = lastE a t 0 := by
  rw [viewLookup, viewLookupGo_eq_lastE]
  cases lastE a t 0 <;> simp

theorem lastE_none (a : Nat) (t : ViewNode) :
    ∀ s : Nat, lastE a t s = none → ∀ d : Nat, entryAtPath t (pathOf a s d) = none := by
  induction t with
  | nil => intro s _ d; simp [entryAtPath_nilNode]
  | mk l r vi ihl ihr =>
    intro s h d
    rw [lastE_mk] at h
    by_cases hb : takeRight a s
    · rw [if_pos hb] at h
      cases hr : lastE a r (s + 1) with
      | some e => rw [hr] at h; simp at h
      | none =>
        rw [hr] at h; simp at h
        cases d with
        | zero => simp [pathOf_zero, entryAtPath, nodeAt, vinfoOf, h]
        | succ d =>
          rw [pathOf_succ, entryAtPath_cons, if_pos hb]
          exact ihr (s + 1) hr d
    · rw [if_neg hb] at h
      cases hr : lastE a l (s + 1) with
      | some e => rw [hr] at h; simp at h
      | none =>
        rw [hr] at h; simp at h
        cases d with
        | zero => simp [pathOf_zero, entryAtPath, nodeAt, vinfoOf, h]
        | succ d =>
          rw [pathOf_succ, entryAtPath_cons, if_neg hb]
          exact ihl (s + 1) hr d

theorem lastE_some (a : Nat) (t : ViewNode) :
    ∀ (s : Nat) (e : ViewInfo), lastE a t s = some e →
      ∃ d, entryAtPath t (pathOf a s d) = some e ∧
        ∀ d', d < d' → entryAtPath t (pathOf a s d') = none := by
  induction t with
  | nil => intro s e h; rw [show lastE a ViewNode.nil s = none from rfl] at h; cases h
  | mk l r vi ihl ihr =>
    intro s e h
    rw [lastE_mk] at h
    by_cases hb : takeRight a s
    · rw [if_pos hb] at h
      cases hr : lastE a r (s + 1) with
      | some e0 =>
        rw [hr] at h; simp at h
        subst h
        obtain ⟨d, hd, hrest⟩ := ihr (s + 1) e0 hr
        refine ⟨d + 1, ?_, ?_⟩
        · rw [pathOf_succ, entryAtPath_cons, if_pos hb]; exact hd
        · intro d' hd'
          cases d' with
          | zero => omega
          | succ d0 =>
            rw [pathOf_succ, entryAtPath_cons, if_pos hb]
            exact hrest d0 (by omega)
      | none =>
        rw [hr] at h; simp at h
        refine ⟨0, ?_, ?_⟩
        · simp [pathOf_zero, entryAtPath, nodeAt, vinfoOf, h]
        · intro d' hd'
          cases d' with
          | zero => omega
          | succ d0 =>
            rw [pathOf_succ, entryAtPath_cons, if_pos hb]
            exact lastE_none a r (s + 1) hr d0
    · rw [if_neg hb] at h
      cases hr : lastE a l (s + 1) with
      | some e0 =>
        rw [hr] at h; simp at h
        subst h
        obtain ⟨d, hd, hrest⟩ := ihl (s + 1) e0 hr
        refine ⟨d + 1, ?_, ?_⟩
        · rw [pathOf_succ, entryAtPath_cons, if_neg hb]; exact hd
        · intro d' hd'
          cases d' with
          | zero => omega
          | succ d0 =>
            rw [pathOf_succ, entryAtPath_cons, if_neg hb]
            exact hrest d0 (by omega)
      | none =>
        rw [hr] at h; simp at h
        refine ⟨0, ?_, ?_⟩
        · simp [pathOf_zero, entryAtPath, nodeAt, vinfoOf, h]
        · intro d' hd'
          cases d' with
          | zero => omega
          | succ d0 =>
            rw [pathOf_succ, entryAtPath_cons, if_neg hb]
            exact lastE_none a l (s + 1) hr d0

/-! Section: Lemmas: paths and bit-prefix matching -/

theorem pathOf_length (a : Nat) : ∀ s d : Nat, (pathOf a s d).length = d := by
  intro s d
  induction d generalizing s with
  | zero => rfl
  | succ d ih => simp [pathOf_succ, ih]

theorem pathOf_eq_iff (a A : Nat) :
    ∀ s m : Nat, pathOf a s m = pathOf A s m ↔
      ∀ i, i < m → takeRight a (s + i) = takeRight A (s + i) := by
  intro s m
  induction m generalizing s with
  | zero => simp [pathOf_zero]
  | succ m ih =>
    rw [pathOf_succ, pathOf_succ]
    constructor
    · intro h i hi
      obtain ⟨h0, h1⟩ := List.cons_eq_cons.mp h
      cases i with
      | zero => simpa using h0
      | succ i0 =>
        have hs : s + (i0 + 1) = s + 1 + i0 := by omega
        rw [hs]
        exact ((ih (s + 1)).mp h1) i0 (by omega)
    · intro h
      have h0 : takeRight a s = takeRight A s := by simpa using h 0 (by omega)
      have h1 : pathOf a (s + 1) m = pathOf A (s + 1) m := by
        rw [ih (s + 1)]
        intro i hi
        have hs : s + 1 + i = s + (i + 1) := by omega
        rw [hs]
        exact h (i + 1) (by omega)
      rw [h0, h1]

theorem prefixMatches_iff_pathOf (a m A : Nat) :
    prefixMatches a m A ↔ pathOf a 0 m = pathOf A 0 m := by
  rw [pathOf_eq_iff]
  simp [prefixMatches]

/-! Section: Lemmas: trie height bounds the lookup walk -/

theorem heightOf_nil : heightOf ViewNode.nil = 0 := rfl

theorem heightOf_mk (l r : ViewNode) (vi : Option ViewInfo) :
    heightOf (ViewNode.mk l r vi) = 1 + max (heightOf l) (heightOf r) := rfl

theorem heightOf_buildChain (a : Nat) (info : ViewInfo) :
    ∀ s k : Nat, heightOf (buildChain a info s k) = k + 1 := by
  intro s k
  induction k generalizing s with
  | zero => rfl
  | succ k ih =>
    by_cases hb : takeRight a s <;>
      · simp [buildChain, hb, heightOf_mk, heightOf_nil, ih]
        omega

theorem viewInsertGo_height (a : Nat) (info : ViewInfo) (t : ViewNode) :
    ∀ (m : Int) (s : Nat),
      heightOf (viewInsertGo a info t m s).1 ≤ max (heightOf t) (m.toNat + 1) := by
  induction t with
  | nil => intro m s; simp [viewInsertGo, heightOf_nil]
  | mk l r vi ihl ihr =>
    intro m s
    rw [viewInsertGo_mk]
    by_cases hm : m ≤ 0
    · rw [if_pos hm]
      cases vi <;> simp [heightOf_mk]
    · rw [if_neg hm]
      have hmt : (m - 1).toNat + 1 = m.toNat := by omega
      by_cases hb : takeRight a s
      · rw [if_pos hb]
        cases r with
        | nil =>
          simp only [heightOf_mk, heightOf_nil, heightOf_buildChain]
          omega
        | mk cl cr cvi =>
          have h := ihr (m - 1) (s + 1)
          simp only [heightOf_mk] at h ⊢
          omega
      · rw [if_neg hb]
        cases l with
        | nil =>
          simp only [heightOf_mk, heightOf_nil, heightOf_buildChain]
          omega
        | mk cl cr cvi =>
          have h := ihl (m - 1) (s + 1)
          simp only [heightOf_mk] at h ⊢
          omega

theorem heightOf_insertCall (t : ViewNode) (c : Nat × Nat × ViewInfo) :
    heightOf (insertCall t c) ≤ max (heightOf t) (c.2.1 + 1) := by
  have h := viewInsertGo_height c.1 c.2.2 t (c.2.1 : Int) 0
  rw [show ((c.2.1 : Int)).toNat = c.2.1 by omega] at h
  exact h

theorem heightOf_foldl_le (calls : List (Nat × Nat × ViewInfo)) :
    ∀ t : ViewNode, (∀ c ∈ calls, c.2.1 ≤ 32) → heightOf t ≤ 33 →
      heightOf (calls.foldl insertCall t) ≤ 33 := by
  induction calls with
  | nil => intro t _ ht; simpa using ht
  | cons c cs ih =>
    intro t hc ht
    rw [List.foldl_cons]
    refine ih (insertCall t c) (fun x hx => hc x (List.mem_cons_of_mem _ hx)) ?_
    have h1 := heightOf_insertCall t c
    have h2 : c.2.1 ≤ 32 := hc c (List.mem_cons_self _ _)
    omega

theorem heightOf_buildTrie_le (calls : List (Nat × Nat × ViewInfo))
    (hc : ∀ c ∈ calls, c.2.1 ≤ 32) : heightOf (buildTrie calls) ≤ 33 := by
  exact heightOf_foldl_le calls freshView hc (by simp [freshView, heightOf_mk, heightOf_nil])

theorem lookupVisits_le_height (a : Nat) (t : ViewNode) :
    ∀ s : Nat, lookupVisits a t s ≤ heightOf t := by
  induction t with
  | nil => intro s; simp [lookupVisits, heightOf_nil]
  | mk l r vi ihl ihr =>
    intro s
    cases hb : takeRight a s <;>
      simp only [lookupVisits, hb, heightOf_mk, if_true, if_false, Bool.false_eq_true, ite_false,
        ite_true]
    · have := ihl (s + 1); omega
    · have := ihr (s + 1); omega

/-! Section: Lemmas: the dotted-quad parsing pipeline of `Lookup` -/

theorem atoiAll_eq_none_iff (l : List (List Char)) :
    atoiAll l = none ↔ ∃ c ∈ l, goAtoi c = none := by
  induction l with
  | nil => simp [atoiAll]
  | cons c cs ih =>
    cases hg : goAtoi c with
    | none =>
      simp only [atoiAll, hg]
      constructor
      · intro _
        exact ⟨c, List.mem_cons_self _ _, hg⟩
      · intro _
        trivial
    | some z =>
      cases ha : atoiAll cs with
      | none =>
        simp only [atoiAll, hg, ha]
        constructor
        · intro _
          obtain ⟨x, hx, hfx⟩ := ih.mp ha
          exact ⟨x, List.mem_cons_of_mem _ hx, hfx⟩
        · intro _
          trivial
      | some zs =>
        simp only [atoiAll, hg, ha]
        constructor
        · intro h
          cases h
        · rintro ⟨x, hx, hfx⟩
          rcases List.mem_cons.mp hx with rfl | hx2
          · rw [hg] at hfx
            cases hfx
          · have hcontra : atoiAll cs = none := ih.mpr ⟨x, hx2, hfx⟩
            rw [ha] at hcontra
            cases hcontra

theorem atoiAll_length (l : List (List Char)) :
    ∀ zs : List Int, atoiAll l = some zs → zs.length = l.length := by
  induction l with
  | nil =>
    intro zs h
    simp only [atoiAll, Option.some.injEq] at h
    rw [← h]
    rfl
  | cons c cs ih =>
    intro zs h
    simp only [atoiAll] at h
    cases hg : goAtoi c with
    | none => rw [hg] at h; cases h
    | some z =>
      cases ha : atoiAll cs with
      | none => rw [hg, ha] at h; cases h
      | some zs0 =>
        rw [hg, ha] at h
        cases h
        simp [ih zs0 ha]

theorem list_four_of_length {α : Type} (zs : List α) (h : zs.length = 4) :
    ∃ a b c d, zs = [a, b, c, d] := by
  rcases zs with _ | ⟨a, _ | ⟨b, _ | ⟨c, _ | ⟨d, _ | ⟨e, tl⟩⟩⟩⟩⟩ <;>
    simp only [List.length_nil, List.length_cons] at h <;>
    first
    | omega
    | exact ⟨a, b, c, d, rfl⟩

theorem parseAddr_eq_some (addr : List Char) (z0 z1 z2 z3 : Int)
    (hl : (splitDots addr).length = 4)
    (ha : atoiAll (splitDots addr) = some [z0, z1, z2, z3]) :
    parseAddr addr =
      some (viewUintAddr (goUint8 z0) (goUint8 z1) (goUint8 z2) (goUint8 z3)) := by
  simp only [parseAddr]
  rw [if_pos hl, ha]

theorem parseAddr_eq_none_iff (addr : List Char) :
    parseAddr addr = none ↔
      (splitDots addr).length ≠ 4 ∨ ∃ comp ∈ splitDots addr, goAtoi comp = none := by
  by_cases hl : (splitDots addr).length = 4
  · cases ha : atoiAll (splitDots addr) with
    | none =>
      simp only [parseAddr]
      rw [if_pos hl, ha]
      simp only [eq_self_iff_true, true_iff]
      exact Or.inr ((atoiAll_eq_none_iff _).mp ha)
    | some zs =>
      have hzl : zs.length = 4 := by rw [atoiAll_length _ zs ha]; exact hl
      obtain ⟨z0, z1, z2, z3, rfl⟩ := list_four_of_length zs hzl
      rw [parseAddr_eq_some addr z0 z1 z2 z3 hl ha]
      have hnofail : ¬ ∃ comp ∈ splitDots addr, goAtoi comp = none := by
        rw [← atoiAll_eq_none_iff, ha]
        simp
      simp [hl, hnofail]
  · simp only [parseAddr]
    rw [if_neg hl]
    simp [hl]

/-! Section: Concrete entries used in example-based claims -/

def infoA : ViewInfo := ViewInfo.mk "A" "10.0.0.0/8"

def infoB : ViewInfo := ViewInfo.mk "B" "10.1.0.0/16"

def infoD : ViewInfo := ViewInfo.mk "default" "0.0.0.0/0"

def demoCalls : List (Nat × Nat × ViewInfo) := [(167772160, 8, infoA), (167837696, 16, infoB)]

/-! Section: Claim theorems -/

/-- Claim C1: for a trie built by `Insert` calls with pairwise distinct
`(address, prefixLength)` pairs, every prefix length in `[0, 32]`, and any
32-bit address `A`, `viewLookup` returns the entry of an inserted prefix of
maximal prefix length among all inserted prefixes whose leading
`prefixLength` bits agree with `A`, and returns `none` exactly when no
inserted prefix is a bit-prefix of `A`. -/
theorem c1_longest_prefix_match (calls : List (Nat × Nat × ViewInfo))
    (hdist : (calls.map fun c => (c.1, c.2.1)).Nodup)
    (hlen : ∀ c ∈ calls, c.2.1 ≤ 32)
    (A : Nat) (hA : A < 2 ^ 32) :
    (viewLookup (buildTrie calls) A = none ∧
        ∀ c ∈ calls, ¬ prefixMatches c.1 c.2.1 A) ∨
      (∃ c ∈ calls, viewLookup (buildTrie calls) A = some c.2.2 ∧
        prefixMatches c.1 c.2.1 A ∧
        ∀ c2 ∈ calls, prefixMatches c2.1 c2.2.1 A → c2.2.1 ≤ c.2.1) := by
  rw [viewLookup_eq_lastE]
  cases h : lastE A (buildTrie calls) 0 with
  | none =>
    left
    refine ⟨rfl, ?_⟩
    intro c hc hmatch
    have hpath : pathOf c.1 0 c.2.1 = pathOf A 0 c.2.1 :=
      (prefixMatches_iff_pathOf c.1 c.2.1 A).mp hmatch
    have hnone := lastE_none A (buildTrie calls) 0 h c.2.1
    rw [buildTrie_entryAt, Option.map_eq_none', List.find?_eq_none] at hnone
    exact hnone c hc (by
      simp only [callPath, decide_eq_true_eq]
      exact hpath)
  | some e =>
    right
    obtain ⟨d, hd, hrest⟩ := lastE_some A (buildTrie calls) 0 e h
    rw [buildTrie_entryAt, Option.map_eq_some'] at hd
    obtain ⟨c, hfind, hmap⟩ := hd
    have hmap2 : c.2.2 = e := hmap
    have hcmem : c ∈ calls := List.mem_of_find?_eq_some hfind
    have hcpath : pathOf c.1 0 c.2.1 = pathOf A 0 d := by
      have hp := List.find?_some hfind
      simpa [callPath] using hp
    have hcd : c.2.1 = d := by
      have hlen2 := congrArg List.length hcpath
      simpa [pathOf_length] using hlen2
    refine ⟨c, hcmem, ?_, ?_, ?_⟩
    · rw [hmap2]
    · rw [prefixMatches_iff_pathOf, hcd]
      rw [hcd] at hcpath
      exact hcpath
    · intro c2 hmem2 hmatch2
      by_contra hgt
      push_neg at hgt
      have hdlt : d < c2.2.1 := by omega
      have hn := hrest c2.2.1 hdlt
      rw [buildTrie_entryAt, Option.map_eq_none', List.find?_eq_none] at hn
      exact hn c2 hmem2 (by
        simp only [callPath, decide_eq_true_eq]
        exact (prefixMatches_iff_pathOf _ _ _).mp hmatch2)

/-- Witness for C1 at a concrete trie (10.0.0.0/8 then 10.1.0.0/16) and the
concrete address 10.1.2.3. -/
theorem c1_witness :
    ((demoCalls.map fun c => (c.1, c.2.1)).Nodup ∧
        (∀ c ∈ demoCalls, c.2.1 ≤ 32) ∧ 167838211 < 2 ^ 32) ∧
      ((viewLookup (buildTrie demoCalls) 167838211 = none ∧
          ∀ c ∈ demoCalls, ¬ prefixMatches c.1 c.2.1 167838211) ∨
        (∃ c ∈ demoCalls, viewLookup (buildTrie demoCalls) 167838211 = some c.2.2 ∧
          prefixMatches c.1 c.2.1 167838211 ∧
          ∀ c2 ∈ demoCalls, prefixMatches c2.1 c2.2.1 167838211 → c2.2.1 ≤ c.2.1)) :=
  ⟨⟨by decide, by decide, by decide⟩,
    c1_longest_prefix_match demoCalls (by decide) (by decide) 167838211 (by decide)⟩

/-- Claim C2: inserting only `(0, 0, e)` into a fresh trie succeeds, attaches
`e` at the root, and makes every 32-bit address look up to `e`. -/
theorem c2_default_catch_all (e : ViewInfo) :
    (viewInsert freshView 0 0 e).2 = none ∧
      (viewInsert freshView 0 0 e).1 = ViewNode.mk ViewNode.nil ViewNode.nil (some e) ∧
      ∀ A : Nat, A < 2 ^ 32 → viewLookup (viewInsert freshView 0 0 e).1 A = some e := by
  refine ⟨rfl, rfl, ?_⟩
  intro A _
  show viewLookupGo A (ViewNode.mk ViewNode.nil ViewNode.nil (some e)) 0 none = some e
  by_cases hb : takeRight A 0 <;> simp [viewLookupGo, hb]

/-- Witness for C2 at the concrete address 42. -/
theorem c2_witness :
    42 < 2 ^ 32 ∧ viewLookup (viewInsert freshView 0 0 infoD).1 42 = some infoD :=
  ⟨by decide, (c2_default_catch_all infoD).2.2 42 (by decide)⟩

/-- Claim C3: on a trie built from a call sequence, `Insert` fails (and the
only possible failure is `DuplicateSubnet`) exactly when the node at depth
`prefixLength` along the address's bit path already carries an entry, which
happens exactly when some prior call settled on the same masked bit path; a
failing `Insert` leaves the trie unchanged. -/
theorem c3_duplicate_subnet (calls : List (Nat × Nat × ViewInfo)) (a m : Nat)
    (info : ViewInfo) :
    ((viewInsert (buildTrie calls) a (m : Int) info).2 = some VErr.dupNet ↔
        entryAtPath (buildTrie calls) (pathOf a 0 m) ≠ none) ∧
      (entryAtPath (buildTrie calls) (pathOf a 0 m) ≠ none ↔
        ∃ c ∈ calls, pathOf c.1 0 c.2.1 = pathOf a 0 m) ∧
      ((viewInsert (buildTrie calls) a (m : Int) info).2 = none ∨
        (viewInsert (buildTrie calls) a (m : Int) info).2 = some VErr.dupNet) ∧
      ((viewInsert (buildTrie calls) a (m : Int) info).2 = none ∨
        (viewInsert (buildTrie calls) a (m : Int) info).1 = buildTrie calls) := by
  have hsnd := viewInsertGo_snd a info (buildTrie calls) (m : Int) 0
  rw [show ((m : Int)).toNat = m by omega] at hsnd
  simp only [viewInsert]
  refine ⟨?_, ?_, ?_, ?_⟩
  · rw [hsnd]
    by_cases hh : entryAtPath (buildTrie calls) (pathOf a 0 m) = none <;> simp [hh]
  · rw [buildTrie_entryAt, Option.ne_none_iff_isSome, Option.isSome_map', List.find?_isSome]
    simp [callPath]
  · rw [hsnd]
    by_cases hh : entryAtPath (buildTrie calls) (pathOf a 0 m) = none <;> simp [hh]
  · exact viewInsertGo_none_or_unchanged a info (buildTrie calls) (m : Int) 0

/-- Claim C4: an `Insert` that returns an error leaves the trie unchanged, so
every subsequent lookup behaves as before the failed call. -/
theorem c4_failed_insert_unchanged (t : ViewNode) (a : Nat) (m : Int) (info : ViewInfo)
    (e : VErr) (h : (viewInsert t a m info).2 = some e) :
    (viewInsert t a m info).1 = t ∧
      ∀ A : Nat, viewLookup (viewInsert t a m info).1 A = viewLookup t A := by
  have hor := viewInsertGo_none_or_unchanged a info t m 0
  simp only [viewInsert] at h ⊢
  rcases hor with h0 | h1
  · rw [h0] at h
    cases h
  · exact ⟨h1, fun A => by rw [h1]⟩

/-- Witness for C4 at a concrete duplicate insert against a root entry. -/
theorem c4_witness :
    (viewInsert (ViewNode.mk ViewNode.nil ViewNode.nil (some infoA)) 5 0 infoB).2 =
        some VErr.dupNet ∧
      (viewInsert (ViewNode.mk ViewNode.nil ViewNode.nil (some infoA)) 5 0 infoB).1 =
        ViewNode.mk ViewNode.nil ViewNode.nil (some infoA) ∧
      viewLookup (viewInsert (ViewNode.mk ViewNode.nil ViewNode.nil (some infoA)) 5 0 infoB).1 7 =
        viewLookup (ViewNode.mk ViewNode.nil ViewNode.nil (some infoA)) 7 :=
  ⟨by decide,
    (c4_failed_insert_unchanged (ViewNode.mk ViewNode.nil ViewNode.nil (some infoA)) 5 0 infoB
      VErr.dupNet (by decide)).1,
    (c4_failed_insert_unchanged (ViewNode.mk ViewNode.nil ViewNode.nil (some infoA)) 5 0 infoB
      VErr.dupNet (by decide)).2 7⟩

/-- Claim C5: inserting 10.0.0.0/8 then 10.1.0.0/16 both succeed, and lookup
resolves 10.1.2.3 to the /16 entry, 10.2.2.3 to the /8 entry, and 11.0.0.0 to
no match. -/
theorem c5_nested_prefixes :
    (viewInsert freshView 167772160 8 infoA).2 = none ∧
      (viewInsert (viewInsert freshView 167772160 8 infoA).1 167837696 16 infoB).2 = none ∧
      viewLookup
          (viewInsert (viewInsert freshView 167772160 8 infoA).1 167837696 16 infoB).1
          167838211 = some infoB ∧
      viewLookup
          (viewInsert (viewInsert freshView 167772160 8 infoA).1 167837696 16 infoB).1
          167903747 = some infoA ∧
      viewLookup
          (viewInsert (viewInsert freshView 167772160 8 infoA).1 167837696 16 infoB).1
          184549376 = none := by
  refine ⟨by decide, by decide, by decide, by decide, by decide⟩

/-- Claim C6: on a trie built by inserts with prefix lengths in `[0, 32]`, the
lookup walk visits at most 33 nodes (at most 32 descent steps) for any
address. -/
theorem c6_lookup_depth_bound (calls : List (Nat × Nat × ViewInfo))
    (hm : ∀ c ∈ calls, c.2.1 ≤ 32) (A : Nat) :
    lookupVisits A (buildTrie calls) 0 ≤ 33 :=
  le_trans (lookupVisits_le_height A (buildTrie calls) 0) (heightOf_buildTrie_le calls hm)

/-- Witness for C6 at a concrete one-call trie with prefix length 32. -/
theorem c6_witness :
    (∀ c ∈ ([(4026531840, 32, infoA)] : List (Nat × Nat × ViewInfo)), c.2.1 ≤ 32) ∧
      lookupVisits 4026531840 (buildTrie [(4026531840, 32, infoA)]) 0 ≤ 33 :=
  ⟨by decide, c6_lookup_depth_bound [(4026531840, 32, infoA)] (by decide) 4026531840⟩

/-- Claim C7: the codec packs the four octets MSB-first
(`a*2^24 + b*2^16 + c*2^8 + d`), and re-extracting the four bytes of the
packed value, high byte first, reproduces the original quad. -/
theorem c7_codec_roundtrip (a b c d : Nat) (ha : a < 256) (hb : b < 256) (hc : c < 256)
    (hd : d < 256) :
    viewUintAddr a b c d = a * 2 ^ 24 + b * 2 ^ 16 + c * 2 ^ 8 + d ∧
      viewUintAddr a b c d / 2 ^ 24 % 256 = a ∧
      viewUintAddr a b c d / 2 ^ 16 % 256 = b ∧
      viewUintAddr a b c d / 2 ^ 8 % 256 = c ∧
      viewUintAddr a b c d % 256 = d := by
  have h : viewUintAddr a b c d = ((a * 256 + b) * 256 + c) * 256 + d := by
    simp only [viewUintAddr, beUint32, List.foldl_cons, List.foldl_nil]
    ring
  rw [h]
  refine ⟨by ring, by omega, by omega, by omega, by omega⟩

/-- Witness for C7 at the quad (171, 205, 18, 52). -/
theorem c7_witness :
    (171 < 256 ∧ 205 < 256 ∧ 18 < 256 ∧ 52 < 256) ∧
      (viewUintAddr 171 205 18 52 = 171 * 2 ^ 24 + 205 * 2 ^ 16 + 18 * 2 ^ 8 + 52 ∧
        viewUintAddr 171 205 18 52 / 2 ^ 24 % 256 = 171 ∧
        viewUintAddr 171 205 18 52 / 2 ^ 16 % 256 = 205 ∧
        viewUintAddr 171 205 18 52 / 2 ^ 8 % 256 = 18 ∧
        viewUintAddr 171 205 18 52 % 256 = 52) :=
  ⟨⟨by decide, by decide, by decide, by decide⟩,
    c7_codec_roundtrip 171 205 18 52 (by decide) (by decide) (by decide) (by decide)⟩

/-- Claim C8: `Lookup` fails with `InvalidAddress` exactly when splitting on
`'.'` does not yield 4 components or some component does not parse as an
integer; a failed parse returns no entry together with the error, the only
error is `InvalidAddress`, and the three concrete malformed inputs
`1.2.3`, `1.2.3.4.5`, `a.b.c.d` all fail. -/
theorem c8_malformed_address (v : ViewNode) (addr : List Char) :
    ((Lookup v addr).2 = some VErr.badAddress ↔
        ((splitDots addr).length ≠ 4 ∨ ∃ comp ∈ splitDots addr, goAtoi comp = none)) ∧
      ((Lookup v addr).1 = none ∨ (Lookup v addr).2 = none) ∧
      ((Lookup v addr).2 = none ∨ (Lookup v addr).2 = some VErr.badAddress) ∧
      Lookup v ['1', '.', '2', '.', '3'] = (none, some VErr.badAddress) ∧
      Lookup v ['1', '.', '2', '.', '3', '.', '4', '.', '5'] = (none, some VErr.badAddress) ∧
      Lookup v ['a', '.', 'b', '.', 'c', '.', 'd'] = (none, some VErr.badAddress) := by
  refine ⟨?_, ?_, ?_, rfl, rfl, rfl⟩
  · rw [← parseAddr_eq_none_iff]
    cases hp : parseAddr addr <;> simp [Lookup, hp]
  · cases hp : parseAddr addr <;> simp [Lookup, hp]
  · cases hp : parseAddr addr <;> simp [Lookup, hp]

/-- Claim C9: integer components are truncated modulo 256 before packing, so
two parsable dotted quads whose components agree modulo 256 parse to the same
32-bit address, `Lookup` treats them identically on any trie, and
out-of-range components are not rejected. -/
theorem c9_octet_truncation (v : ViewNode) (s1 s2 : List Char) (zs ws : List Int)
    (h1 : atoiAll (splitDots s1) = some zs) (h2 : atoiAll (splitDots s2) = some ws)
    (hl1 : (splitDots s1).length = 4) (hl2 : (splitDots s2).length = 4)
    (hcong : zs.map (fun z => z % 256) = ws.map (fun z => z % 256)) :
    parseAddr s1 = parseAddr s2 ∧ Lookup v s1 = Lookup v s2 ∧ (Lookup v s1).2 = none := by
  obtain ⟨z0, z1, z2, z3, rfl⟩ :=
    list_four_of_length zs (by rw [atoiAll_length _ _ h1]; exact hl1)
  obtain ⟨w0, w1, w2, w3, rfl⟩ :=
    list_four_of_length ws (by rw [atoiAll_length _ _ h2]; exact hl2)
  obtain ⟨e0, e1, e2, e3⟩ :
      z0 % 256 = w0 % 256 ∧ z1 % 256 = w1 % 256 ∧ z2 % 256 = w2 % 256 ∧
        z3 % 256 = w3 % 256 := by
    simpa using hcong
  have hp1 := parseAddr_eq_some s1 z0 z1 z2 z3 hl1 h1
  have hp2 := parseAddr_eq_some s2 w0 w1 w2 w3 hl2 h2
  have hpe : parseAddr s1 = parseAddr s2 := by
    rw [hp1, hp2, goUint8, goUint8, goUint8, goUint8, goUint8, goUint8, goUint8, goUint8,
      e0, e1, e2, e3]
  refine ⟨hpe, ?_, ?_⟩
  · simp only [Lookup, hpe]
  · simp only [Lookup, hp1]

/-- Witness for C9 at the concrete strings `256.0.0.1` and `0.0.0.1`. -/
theorem c9_witness :
    (atoiAll (splitDots ['2', '5', '6', '.', '0', '.', '0', '.', '1']) =
          some [256, 0, 0, 1] ∧
        atoiAll (splitDots ['0', '.', '0', '.', '0', '.', '1']) = some [0, 0, 0, 1] ∧
        (splitDots ['2', '5', '6', '.', '0', '.', '0', '.', '1']).length = 4 ∧
        (splitDots ['0', '.', '0', '.', '0', '.', '1']).length = 4 ∧
        ([256, 0, 0, 1] : List Int).map (fun z => z % 256) =
          ([0, 0, 0, 1] : List Int).map (fun z => z % 256)) ∧
      (parseAddr ['2', '5', '6', '.', '0', '.', '0', '.', '1'] =
          parseAddr ['0', '.', '0', '.', '0', '.', '1'] ∧
        Lookup freshView ['2', '5', '6', '.', '0', '.', '0', '.', '1'] =
          Lookup freshView ['0', '.', '0', '.', '0', '.', '1'] ∧
        (Lookup freshView ['2', '5', '6', '.', '0', '.', '0', '.', '1']).2 = none) :=
  ⟨⟨by decide, by decide, by decide, by decide, by decide⟩,
    c9_octet_truncation freshView ['2', '5', '6', '.', '0', '.', '0', '.', '1']
      ['0', '.', '0', '.', '0', '.', '1'] [256, 0, 0, 1] [0, 0, 0, 1]
      (by decide) (by decide) (by decide) (by decide) (by decide)⟩

/-- Claim C10: a negative `prefixLength` behaves exactly like prefix length 0:
no node is created and the entry is attached at the root, or the call fails
with `DuplicateSubnet` when the root already carries an entry. -/
theorem c10_negative_mask (t : ViewNode) (a : Nat) (info : ViewInfo) (m : Int) (hm : m < 0) :
    viewInsert t a m info = viewInsert t a 0 info ∧
      (∀ l r : ViewNode, viewInsert (ViewNode.mk l r none) a m info =
        (ViewNode.mk l r (some info), none)) ∧
      (∀ (l r : ViewNode) (v0 : ViewInfo), viewInsert (ViewNode.mk l r (some v0)) a m info =
        (ViewNode.mk l r (some v0), some VErr.dupNet)) := by
  refine ⟨?_, ?_, ?_⟩
  · cases t with
    | nil => rfl
    | mk l r vi =>
      show viewInsertGo a info (ViewNode.mk l r vi) m 0 =
        viewInsertGo a info (ViewNode.mk l r vi) 0 0
      rw [viewInsertGo_mk, viewInsertGo_mk, if_pos hm.le, if_pos (le_refl (0 : Int))]
  · intro l r
    show viewInsertGo a info (ViewNode.mk l r none) m 0 = _
    rw [viewInsertGo_mk, if_pos hm.le]
  · intro l r v0
    show viewInsertGo a info (ViewNode.mk l r (some v0)) m 0 = _
    rw [viewInsertGo_mk, if_pos hm.le]

/-- Witness for C10 at mask -7 on a fresh trie. -/
theorem c10_witness :
    ((-7 : Int) < 0) ∧ viewInsert freshView 9 (-7) infoA = viewInsert freshView 9 0 infoA :=
  ⟨by decide, (c10_negative_mask freshView 9 infoA (-7) (by decide)).1⟩
